import Mathlib

/-!
# Verification of the TopTierMeetingSummary scripts

Shallow embedding of the three Python scripts in
`src/bots/personas/commander/skills/TopTierMeetingSummary/`:

* `create_thread_mapping.py` (the Classifier),
* `add_thread_backlinks.py` (the Backlink inserter),
* `extract_with_pymupdf.py` (the Extractor).

File contents are modelled as `List Char` (Python 3 strings are sequences
of characters; the scripts open files in text mode).  Python's `str.lower`
is modelled by `Char.toLower` (the keyword constants are ASCII).
-/

/-! ## Common string helpers (models of Python string operations) -/

/-- Python `str.lower()` applied characterwise (ASCII model). -/
def pyLower (s : List Char) : List Char := s.map Char.toLower

/-- Python `sub in s` (contiguous substring test), as a `Bool`. -/
def pyContains (s sub : List Char) : Bool := decide (sub <:+: s)

/-- Python `s.startswith(pre)`. -/
def pyStartsWith (s pre : List Char) : Bool := pre.isPrefixOf s

/-- Fuel-driven core of `str.replace(pat, "")`: scan left to right and
drop every (non-overlapping, leftmost-first) occurrence of `pat`.
The fuel is initialised to the length of the string, which is enough
because every step consumes at least one character of the input. -/
def removeAllFuel (pat : List Char) : Nat → List Char → List Char
  | _, [] => []
  | 0, s => s
  | fuel + 1, c :: cs =>
    if pat.isPrefixOf (c :: cs) then removeAllFuel pat fuel (cs.drop (pat.length - 1))
    else c :: removeAllFuel pat fuel cs

/-- Python `s.replace(pat, "")` for a non-empty `pat`. -/
def pyRemoveAll (pat s : List Char) : List Char := removeAllFuel pat s.length s

/-- Python `s.replace("_", " ")` (single-character pattern, so a plain map). -/
def underscoreToSpace (s : List Char) : List Char :=
  s.map (fun c => if c = '_' then ' ' else c)

/-- `pathlib.Path.stem` for a file name carrying a fixed extension of
`extLen` characters (such as `".md"` or `".pdf"`): the name with the
extension removed.  (For the degenerate hidden-file name that consists of
the extension alone, pathlib keeps the whole name; the scripts only hit
this function on glob-matched names of the form `base ++ ext` with
`base ≠ ""`.) -/
def stemOfExt (extLen : Nat) (name : List Char) : List Char :=
  if name.length ≤ extLen then name else name.take (name.length - extLen)

/-! ## Classifier (`create_thread_mapping.py`) -/

/-- Keywords of the `AI_ML.md` thread (`thread_mappings` in the source). -/
def aiMlKeywords : List (List Char) :=
  ["AI".toList, "ML".toList, "machine learning".toList, "neural".toList,
   "emulator".toList, "Genesis".toList, "DEIMOS".toList, "EMU".toList,
   "UQ_EMU".toList, "ATLAS".toList, "eigenvector".toList, "STREAMLINE".toList,
   "Bayesian".toList, "deployment".toList]

/-- Keywords of the `Fission_Product_Yields.md` thread. -/
def fpyKeywords : List (List Char) :=
  ["FPY".toList, "fission product".toList, "yield".toList, "CGMF".toList,
   "FREYA".toList, "cumulative".toList, "independent".toList, "fragment".toList,
   "correlation".toList, "anti-neutrino".toList]

/-- Keywords of the `Activation_Data.md` thread. -/
def activationKeywords : List (List Char) :=
  ["activation".toList, "cosmogenic".toList, "PETALE".toList, "micro".toList,
   "CALDERA".toList, "inventory".toList, "transmutation".toList,
   "cross section".toList]

/-- The `thread_mappings` constant: thread name paired with its keyword list. -/
def thread_mappings : List (List Char × List (List Char)) :=
  [("AI_ML.md".toList, aiMlKeywords),
   ("Fission_Product_Yields.md".toList, fpyKeywords),
   ("Activation_Data.md".toList, activationKeywords)]

/-- The read cap used by the classifier: `content = f.read(50000)`. -/
def readCap : Nat := 50000

/-- `matches = sum(1 for kw in keywords if kw.lower() in content_lower)`,
where `content_lower` is the lower-cased first `readCap` characters of the
file's content. -/
def classifierMatches (content : List Char) (kws : List (List Char)) : Nat :=
  let contentLower := pyLower (content.take readCap)
  kws.countP (fun kw => pyContains contentLower (pyLower kw))

/-- Spec-side reading of the match count: the number of *distinct* keywords
of the thread that occur case-insensitively within the first `readCap`
characters of the content. -/
def distinctKeywordMatches (content : List Char) (kws : List (List Char)) : Nat :=
  (kws.dedup.filter
    (fun kw => pyContains (pyLower (content.take readCap)) (pyLower kw))).length

/-- An extracted markdown file as the classifier and the inserter see it:
its file name and its full content. -/
structure MdFile where
  name : List Char
  content : List Char
deriving DecidableEq

/-- One entry of a thread's `presentations` list, as built in the scan loop. -/
structure PresEntry where
  pdf : List Char
  md : List Char
  matchCount : Nat
  title : List Char
deriving DecidableEq

/-- The record appended for a matching document. -/
def mkPresEntry (d : MdFile) (m : Nat) : PresEntry :=
  { pdf := stemOfExt 3 d.name ++ ".pdf".toList
    md := d.name
    matchCount := m
    title := underscoreToSpace (pyRemoveAll "2026-WANDA-".toList (stemOfExt 3 d.name)) }

/-- The `presentations` list accumulated for one thread over the scanned
documents: a document is appended exactly when its match count is at
least 2. -/
def threadPresentations (kws : List (List Char)) (docs : List MdFile) : List PresEntry :=
  docs.filterMap (fun d =>
    let m := classifierMatches d.content kws
    if 2 ≤ m then some (mkPresEntry d m) else none)

/-- `sorted(presentations, key=lambda x: x["matches"], reverse=True)`:
a stable sort, descending on the match count. -/
def sortByMatchesDesc (pres : List PresEntry) : List PresEntry :=
  pres.mergeSort (fun a b => b.matchCount ≤ a.matchCount)

/-- The console listing for one thread: sorted descending, capped at 20. -/
def consoleListing (pres : List PresEntry) : List PresEntry :=
  (sortByMatchesDesc pres).take 20

/-- The report listing for one thread: sorted descending, uncapped. -/
def reportListing (pres : List PresEntry) : List PresEntry :=
  sortByMatchesDesc pres

/-! ## Basic facts about the classifier -/

theorem aiMl_nodup : aiMlKeywords.Nodup := by decide

theorem fpy_nodup : fpyKeywords.Nodup := by decide

theorem activation_nodup : activationKeywords.Nodup := by decide

/-- Every keyword list appearing in `thread_mappings` is duplicate-free. -/
theorem thread_mappings_keywords_nodup :
    ∀ p ∈ thread_mappings, (p.2 : List (List Char)).Nodup := by
  intro p hp
  simp only [thread_mappings, List.mem_cons, List.not_mem_nil, or_false] at hp
  rcases hp with h | h | h <;> subst h
  · exact aiMl_nodup
  · exact fpy_nodup
  · exact activation_nodup

/-- C1: For every document and every thread, the Classifier's match count
for that document against that thread equals the number of distinct
keywords in the thread's keyword list that occur as case-insensitive
substrings within the first `readCap` characters of the document's
content. -/
theorem classifier_matches_eq_distinct_count
    (content : List Char) (p : List Char × List (List Char))
    (hp : p ∈ thread_mappings) :
    classifierMatches content p.2 = distinctKeywordMatches content p.2 := by
  have hnd : (p.2 : List (List Char)).Nodup := thread_mappings_keywords_nodup p hp
  unfold classifierMatches distinctKeywordMatches
  rw [List.dedup_eq_self.mpr hnd, List.countP_eq_length_filter]

/-- Witness for C1 at a concrete document and the AI/ML thread. -/
theorem classifier_matches_eq_distinct_count_witness :
    ("AI_ML.md".toList, aiMlKeywords) ∈ thread_mappings ∧
      classifierMatches "We apply machine learning and Bayesian emulators.".toList
          aiMlKeywords =
        distinctKeywordMatches "We apply machine learning and Bayesian emulators.".toList
          aiMlKeywords :=
  ⟨by decide,
   classifier_matches_eq_distinct_count
     "We apply machine learning and Bayesian emulators.".toList
     ("AI_ML.md".toList, aiMlKeywords) (by decide)⟩

/-- Membership in a thread's `presentations` list is exactly the threshold
test `matches >= 2` (for a scanned document, with distinct file names). -/
theorem mem_threadPresentations_iff
    (kws : List (List Char)) (docs : List MdFile) (d : MdFile)
    (hmem : d ∈ docs) (hnd : (docs.map MdFile.name).Nodup) :
    (∃ e ∈ threadPresentations kws docs, e.md = d.name) ↔
      2 ≤ classifierMatches d.content kws := by
  constructor
  · rintro ⟨e, he, hmd⟩
    rw [threadPresentations, List.mem_filterMap] at he
    obtain ⟨d', hd', heq⟩ := he
    simp only at heq
    split at heq
    · next hcond =>
      cases heq
      have hname : d'.name = d.name := hmd
      have : d' = d := List.inj_on_of_nodup_map hnd hd' hmem hname
      rwa [this] at hcond
    · exact absurd heq (by simp)
  · intro h
    refine ⟨mkPresEntry d (classifierMatches d.content kws), ?_, rfl⟩
    rw [threadPresentations, List.mem_filterMap]
    exact ⟨d, hmem, by simp only [if_pos h]⟩

/-- C2: a scanned document appears in a thread's result list iff its match
count for that thread is at least the threshold 2; consequently a document
whose match count is below 2 for every thread appears in no thread's
result list. -/
theorem doc_in_thread_iff_threshold
    (docs : List MdFile) (d : MdFile)
    (hmem : d ∈ docs) (hnd : (docs.map MdFile.name).Nodup) :
    (∀ p ∈ thread_mappings,
        ((∃ e ∈ threadPresentations p.2 docs, e.md = d.name) ↔
          2 ≤ classifierMatches d.content p.2)) ∧
      ((∀ p ∈ thread_mappings, classifierMatches d.content p.2 < 2) →
        ∀ p ∈ thread_mappings,
          ¬ ∃ e ∈ threadPresentations p.2 docs, e.md = d.name) := by
  refine ⟨fun p _ => mem_threadPresentations_iff p.2 docs d hmem hnd, ?_⟩
  intro hlow p hp hmem'
  exact absurd ((mem_threadPresentations_iff p.2 docs d hmem hnd).mp hmem')
    (Nat.not_le.mpr (hlow p hp))

/-- A concrete scanned document used to witness the classifier claims. -/
def demoDoc : MdFile :=
  ⟨"2026-WANDA-Demo.md".toList,
   "We apply machine learning and Bayesian emulators.".toList⟩

/-- Witness for C2: a concrete one-document corpus against the AI/ML thread. -/
theorem doc_in_thread_iff_threshold_witness :
    (∃ e ∈ threadPresentations ("AI_ML.md".toList, aiMlKeywords).2 [demoDoc],
        e.md = demoDoc.name) ↔
      2 ≤ classifierMatches demoDoc.content ("AI_ML.md".toList, aiMlKeywords).2 :=
  (doc_in_thread_iff_threshold [demoDoc] demoDoc (by decide) (by decide)).1
    ("AI_ML.md".toList, aiMlKeywords) (by decide)

/-- The descending comparison on match counts, as used by `sorted(...,
key=lambda x: x["matches"], reverse=True)`. -/
theorem sortByMatchesDesc_pairwise (pres : List PresEntry) :
    (sortByMatchesDesc pres).Pairwise
      (fun a b => b.matchCount ≤ a.matchCount) := by
  have h := @List.sorted_mergeSort PresEntry
    (fun a b : PresEntry => decide (b.matchCount ≤ a.matchCount))
    (fun a b c hab hbc => by
      simp only [decide_eq_true_eq] at *
      omega)
    (fun a b => by
      simp only [Bool.or_eq_true, decide_eq_true_eq]
      exact Nat.le_total b.matchCount a.matchCount)
    pres
  exact h.imp (fun hab => by simpa using hab)

/-- C8: for every thread, the console listing shows the matched documents
sorted in descending order of match count and has at most 20 entries,
while the report lists every matched document (a permutation of the full
`presentations` list), also sorted descending. -/
theorem console_capped_report_complete
    (docs : List MdFile) (p : List Char × List (List Char))
    (hp : p ∈ thread_mappings) :
    (consoleListing (threadPresentations p.2 docs)).length ≤ 20 ∧
      (consoleListing (threadPresentations p.2 docs)).Pairwise
        (fun a b => b.matchCount ≤ a.matchCount) ∧
      (∀ e ∈ consoleListing (threadPresentations p.2 docs),
        e ∈ threadPresentations p.2 docs) ∧
      (reportListing (threadPresentations p.2 docs)).Perm
        (threadPresentations p.2 docs) ∧
      (reportListing (threadPresentations p.2 docs)).Pairwise
        (fun a b => b.matchCount ≤ a.matchCount) := by
  refine ⟨?_, ?_, ?_, ?_, ?_⟩
  · simpa [consoleListing] using Nat.min_le_left 20 _
  · exact (sortByMatchesDesc_pairwise _).sublist (List.take_sublist _ _)
  · intro e he
    have : e ∈ sortByMatchesDesc (threadPresentations p.2 docs) :=
      (List.take_sublist _ _).mem he
    simpa [sortByMatchesDesc] using this
  · exact List.mergeSort_perm _ _
  · exact sortByMatchesDesc_pairwise _

/-- Witness for C8 at a concrete corpus and the AI/ML thread. -/
theorem console_capped_report_complete_witness :
    (consoleListing (threadPresentations ("AI_ML.md".toList, aiMlKeywords).2
        [demoDoc])).length ≤ 20 ∧
      (consoleListing (threadPresentations ("AI_ML.md".toList, aiMlKeywords).2
          [demoDoc])).Pairwise (fun a b => b.matchCount ≤ a.matchCount) ∧
      (∀ e ∈ consoleListing (threadPresentations ("AI_ML.md".toList, aiMlKeywords).2
          [demoDoc]), e ∈ threadPresentations ("AI_ML.md".toList, aiMlKeywords).2 [demoDoc]) ∧
      (reportListing (threadPresentations ("AI_ML.md".toList, aiMlKeywords).2
          [demoDoc])).Perm (threadPresentations ("AI_ML.md".toList, aiMlKeywords).2 [demoDoc]) ∧
      (reportListing (threadPresentations ("AI_ML.md".toList, aiMlKeywords).2
          [demoDoc])).Pairwise (fun a b => b.matchCount ≤ a.matchCount) :=
  console_capped_report_complete [demoDoc] ("AI_ML.md".toList, aiMlKeywords) (by decide)

/-! ## Backlink inserter (`add_thread_backlinks.py`) -/

/-- The `thread_map` constant: topic name paired with its document keys. -/
def thread_map : List (List Char × List (List Char)) :=
  [("AI_ML".toList,
    ["Rare_Isotope_Beams".toList, "InverseUncertaintyQuantificationwith_MachineL".toList,
     "RECENT_DEPLOYMENT_OF_AI_ML_TOOLS".toList, "UQ_EMU_Machine_Learning".toList,
     "AI_ML_Experimental_Design".toList, "AI_Program_Overview".toList,
     "DEIMOS_BRAIN".toList, "Sparse_Bayesian_Methods".toList,
     "Dynamic_UQ_Bayesian_Model".toList]),
   ("Fission_Product_Yields".toList,
    ["FPY_Modeling".toList, "Fission_Session_Overview".toList,
     "FPY_Measurements".toList, "FPY_Needs".toList, "FPY_Correlations".toList,
     "Uncertainty_Quantification_in_Fission_Fragmen".toList,
     "Stockpile_Science_Fission".toList, "ORNL_Inventory_UQ".toList]),
   ("Activation_Data".toList,
    ["High_Precision_Gamma_Ray_Decay_Data".toList, "Inventory_Sub_Library".toList,
     "MicroCALDERA_Active_Target".toList,
     "Benchmarking_and_validating_cosmogenic_activa".toList,
     "PETALE_Benchmark".toList, "ORNL_Inventory_UQ".toList])]

/-- `file_to_threads.get(key, [])`: the inversion of `thread_map` built by
the nested loop (for each topic in order, the topic's name is appended to
the bucket of every one of its files). -/
def fileToThreads (key : List Char) : List (List Char) :=
  thread_map.foldl
    (fun acc p => acc ++ (p.2.filter (fun f => f == key)).map (fun _ => p.1)) []

/-- Python `f.readlines()` on content already using `\n` line endings:
split after every newline, keeping the newline at the end of each line.
The final line may lack a trailing newline; an empty file yields no lines. -/
def pyReadlines : List Char → List (List Char)
  | [] => []
  | c :: cs =>
    match pyReadlines cs with
    | [] => [[c]]
    | l :: ls => if c = '\n' then ['\n'] :: l :: ls else (c :: l) :: ls

/-- The idempotence-guard marker searched for in every line. -/
def relatedMarker : List Char := "Related Threads:".toList

/-- `any("Related Threads:" in line for line in lines)`. -/
def hasBacklinks (lines : List (List Char)) : Bool :=
  lines.any (fun l => pyContains l relatedMarker)

/-- The search loop for the insertion point: starting from index `i`,
return `j + 1` for the first absolute index `j > 0` whose line starts with
`"---"`, and `0` (the initial value of `insert_idx`) when there is none. -/
def findInsertIdxGo : Nat → List (List Char) → Nat
  | _, [] => 0
  | i, l :: ls =>
    if pyStartsWith l "---".toList && decide (0 < i) then i + 1
    else findInsertIdxGo (i + 1) ls

/-- The insertion index chosen for a file's lines. -/
def findInsertIdx (lines : List (List Char)) : Nat := findInsertIdxGo 0 lines

/-- One `- [[Threads/<name>]]` line of the backlink section. -/
def backlinkLine (t : List Char) : List Char :=
  "- [[Threads/".toList ++ t ++ "]]\n".toList

/-- The backlink section, built exactly as the accumulation loop does:
start from `"\n**Related Threads:**\n"`, append one line per thread, then
append a final blank line. -/
def backlinkBlock (threads : List (List Char)) : List Char :=
  (threads.foldl (fun acc t => acc ++ backlinkLine t)
    "\n**Related Threads:**\n".toList) ++ "\n".toList

/-- `file_key = md_file.stem.replace("2026-WANDA-", "")`. -/
def wandaKey (name : List Char) : List Char :=
  pyRemoveAll "2026-WANDA-".toList (stemOfExt 3 name)

/-- The per-file transformation of the inserter: skip when a line already
contains the marker, skip when the key has no threads, otherwise insert
the backlink block at the computed index and write the lines back
(`writelines` concatenates them). -/
def processContent (name : List Char) (c : List Char) : List Char :=
  let lines := pyReadlines c
  if hasBacklinks lines then c
  else
    let threads := fileToThreads (wandaKey name)
    if threads.isEmpty then c
    else (lines.insertIdx (findInsertIdx lines) (backlinkBlock threads)).flatten

/-- The glob pattern `2026-WANDA-*.md`: the name decomposes as the fixed
prefix, an arbitrary middle part, and the `.md` extension. -/
def matchesWandaGlob (name : List Char) : Bool :=
  "2026-WANDA-".toList.isPrefixOf name && ".md".toList.isSuffixOf name &&
    decide ("2026-WANDA-".toList.length + ".md".toList.length ≤ name.length)

/-- The inserter's effect on one file of the directory: files not matching
the glob are never opened; matching files are rewritten with
`processContent`. -/
def inserterStep (f : MdFile) : MdFile :=
  if matchesWandaGlob f.name then ⟨f.name, processContent f.name f.content⟩ else f

/-- The whole run of the inserter over the directory. -/
def runInserter (files : List MdFile) : List MdFile := files.map inserterStep


/-! ## Facts about `pyReadlines` and the inserter -/

theorem pyReadlines_cons (c : Char) (cs : List Char) :
    pyReadlines (c :: cs) =
      match pyReadlines cs with
      | [] => [[c]]
      | l :: ls => if c = '\n' then ['\n'] :: l :: ls else (c :: l) :: ls := rfl

theorem pyReadlines_ne_nil (c : Char) (cs : List Char) :
    pyReadlines (c :: cs) ≠ [] := by
  rw [pyReadlines_cons]
  cases h : pyReadlines cs with
  | nil => simp
  | cons l ls =>
    dsimp only
    split <;> simp

theorem flatten_pyReadlines (s : List Char) : (pyReadlines s).flatten = s := by
  induction s with
  | nil => rfl
  | cons c cs ih =>
    rw [pyReadlines_cons]
    cases h : pyReadlines cs with
    | nil =>
      cases cs with
      | nil => simp
      | cons c' cs' => exact absurd h (pyReadlines_ne_nil c' cs')
    | cons l ls =>
      rw [h] at ih
      dsimp only
      by_cases hc : c = '\n'
      · subst hc
        simpa using ih
      · rw [if_neg hc]
        simpa using ih

/-- A non-empty, newline-free prefix of the content is a prefix of the
first line. -/
theorem prefix_headD_pyReadlines (sub : List Char) (hnl : ∀ ch ∈ sub, ch ≠ '\n') :
    ∀ s : List Char, sub <+: s → sub ≠ [] → sub <+: (pyReadlines s).headD [] := by
  induction sub with
  | nil => intro s _ hne; exact absurd rfl hne
  | cons ch sub' ih =>
    intro s hpre _
    obtain ⟨t, ht⟩ := hpre
    subst ht
    have hch : ch ≠ '\n' := hnl ch (List.mem_cons_self ch sub')
    rw [List.cons_append, pyReadlines_cons]
    cases h : pyReadlines (sub' ++ t) with
    | nil =>
      have hnil : sub' ++ t = [] := by
        cases hst : sub' ++ t with
        | nil => rfl
        | cons a b => rw [hst] at h; exact absurd h (pyReadlines_ne_nil a b)
      have hs' : sub' = [] := (List.append_eq_nil.mp hnil).1
      dsimp only
      simp [hs']
    | cons l ls =>
      dsimp only
      rw [if_neg hch]
      cases hs : sub' with
      | nil => simp
      | cons a b =>
        have hsub' : sub' ≠ [] := by rw [hs]; simp
        have := ih (fun d hd => hnl d (List.mem_cons_of_mem ch hd)) (sub' ++ t)
          (List.prefix_append sub' t) hsub'
        rw [h] at this
        rw [← hs]
        have this' : sub' <+: l := by simpa using this
        simp only [List.headD_cons]
        exact List.cons_prefix_cons.mpr ⟨rfl, this'⟩

/-- Every line of `pyReadlines cs` yields a line of `pyReadlines (c :: cs)`
that contains it. -/
theorem line_transfer (c : Char) (cs : List Char) (sub l : List Char)
    (hl : l ∈ pyReadlines cs) (hsub : sub <:+: l) :
    ∃ l', l' ∈ pyReadlines (c :: cs) ∧ sub <:+: l' := by
  rw [pyReadlines_cons]
  cases h : pyReadlines cs with
  | nil => rw [h] at hl; simp at hl
  | cons l₀ ls =>
    rw [h] at hl
    dsimp only
    by_cases hc : c = '\n'
    · rw [if_pos hc]
      exact ⟨l, List.mem_cons_of_mem _ hl, hsub⟩
    · rw [if_neg hc]
      rcases List.mem_cons.mp hl with rfl | hmem
      · exact ⟨c :: l, List.mem_cons_self _ _, hsub.trans ⟨[c], [], by simp⟩⟩
      · exact ⟨l, List.mem_cons_of_mem _ hmem, hsub⟩

/-- A non-empty, newline-free infix of the content is an infix of one of
its lines. -/
theorem infix_line_of_infix (sub : List Char) (hnl : ∀ ch ∈ sub, ch ≠ '\n')
    (hne : sub ≠ []) :
    ∀ s : List Char, sub <:+: s → ∃ l, l ∈ pyReadlines s ∧ sub <:+: l := by
  intro s
  induction s with
  | nil =>
    intro hinf
    exact absurd (List.eq_nil_of_infix_nil hinf) hne
  | cons c cs ih =>
    intro hinf
    rcases List.infix_cons_iff.mp hinf with hpre | htail
    · have hhead := prefix_headD_pyReadlines sub hnl (c :: cs) hpre hne
      refine ⟨(pyReadlines (c :: cs)).headD [], ?_, hhead.isInfix⟩
      cases hh : pyReadlines (c :: cs) with
      | nil => exact absurd hh (pyReadlines_ne_nil c cs)
      | cons a b => simp
    · obtain ⟨l, hl, hsub⟩ := ih htail
      exact line_transfer c cs sub l hl hsub

/-- The accumulation loop `backlinks += line` equals the flattened form. -/
theorem foldl_append_backlinkLine :
    ∀ (l : List (List Char)) (init : List Char),
      l.foldl (fun acc t => acc ++ backlinkLine t) init =
        init ++ (l.map backlinkLine).flatten := by
  intro l
  induction l with
  | nil => intro init; simp
  | cons t ts ih => intro init; simp [ih]

/-- The backlink section in closed form: header, one line per thread, and
a final blank line. -/
theorem backlinkBlock_eq (threads : List (List Char)) :
    backlinkBlock threads =
      "\n**Related Threads:**\n".toList ++
        (threads.map backlinkLine).flatten ++ "\n".toList := by
  rw [backlinkBlock, foldl_append_backlinkLine]

/-- The insertion-point search never leaves the line range. -/
theorem findInsertIdxGo_le (ls : List (List Char)) :
    ∀ i, findInsertIdxGo i ls ≤ i + ls.length := by
  induction ls with
  | nil => intro i; simp [findInsertIdxGo]
  | cons l ls ih =>
    intro i
    unfold findInsertIdxGo
    split
    · simp only [List.length_cons]
      omega
    · have := ih (i + 1)
      simp only [List.length_cons]
      omega

theorem findInsertIdx_le (lines : List (List Char)) :
    findInsertIdx lines ≤ lines.length := by
  simpa using findInsertIdxGo_le lines 0

/-- The guard marker occurs inside every generated backlink section. -/
theorem marker_infix_backlinkBlock (threads : List (List Char)) :
    relatedMarker <:+: backlinkBlock threads := by
  have h1 : relatedMarker <:+: "\n**Related Threads:**\n".toList := by decide
  rw [backlinkBlock_eq, List.append_assoc]
  exact h1.trans (List.prefix_append _ _).isInfix

/-- A file whose lines already contain the marker is skipped unchanged. -/
theorem processContent_of_marker (name c : List Char)
    (h : hasBacklinks (pyReadlines c) = true) : processContent name c = c := by
  simp [processContent, h]

/-- A file whose key maps to no threads is skipped unchanged. -/
theorem processContent_of_noThreads (name c : List Char)
    (h : (fileToThreads (wandaKey name)).isEmpty = true) :
    processContent name c = c := by
  simp [processContent, h]

/-- On a guard-passing file the inserter writes the lines with the block
inserted at the computed index. -/
theorem processContent_insert (name c : List Char)
    (h1 : hasBacklinks (pyReadlines c) = false)
    (h2 : (fileToThreads (wandaKey name)).isEmpty = false) :
    processContent name c =
      ((pyReadlines c).insertIdx (findInsertIdx (pyReadlines c))
        (backlinkBlock (fileToThreads (wandaKey name)))).flatten := by
  simp [processContent, h1, h2]

/-- After an insertion the written content contains the marker in one of
its lines, so the guard fires on any later run. -/
theorem hasBacklinks_after_insert (name c : List Char)
    (h1 : hasBacklinks (pyReadlines c) = false)
    (h2 : (fileToThreads (wandaKey name)).isEmpty = false) :
    hasBacklinks (pyReadlines (processContent name c)) = true := by
  rw [processContent_insert name c h1 h2]
  have hmem : backlinkBlock (fileToThreads (wandaKey name)) ∈
      (pyReadlines c).insertIdx (findInsertIdx (pyReadlines c))
        (backlinkBlock (fileToThreads (wandaKey name))) :=
    (List.mem_insertIdx (findInsertIdx_le (pyReadlines c))).mpr (Or.inl rfl)
  have hinf : relatedMarker <:+:
      ((pyReadlines c).insertIdx (findInsertIdx (pyReadlines c))
        (backlinkBlock (fileToThreads (wandaKey name)))).flatten :=
    (marker_infix_backlinkBlock _).trans (List.infix_of_mem_flatten hmem)
  obtain ⟨l, hl, hsubl⟩ :=
    infix_line_of_infix relatedMarker (by decide) (by decide) _ hinf
  rw [hasBacklinks, List.any_eq_true]
  exact ⟨l, hl, by rw [pyContains, decide_eq_true_eq]; exact hsubl⟩

/-- C3: the inserter is idempotent per file — a second run on any file
leaves its content unchanged — because files whose lines contain the
"Related Threads:" marker are skipped before any write. -/
theorem inserter_idempotent (name c : List Char) :
    processContent name (processContent name c) = processContent name c ∧
      (hasBacklinks (pyReadlines c) = true → processContent name c = c) := by
  refine ⟨?_, fun h => processContent_of_marker name c h⟩
  by_cases h1 : hasBacklinks (pyReadlines c) = true
  · rw [processContent_of_marker name c h1]
    exact processContent_of_marker name c h1
  · by_cases h2 : (fileToThreads (wandaKey name)).isEmpty = true
    · rw [processContent_of_noThreads name c h2]
      exact processContent_of_noThreads name c h2
    · exact processContent_of_marker name (processContent name c)
        (hasBacklinks_after_insert name c
          (Bool.eq_false_iff.mpr h1) (Bool.eq_false_iff.mpr h2))

/-- Witness for C3 on a concrete already-annotated file. -/
theorem inserter_idempotent_witness :
    hasBacklinks (pyReadlines "# T\n\n---\n\n**Related Threads:**\n\nbody\n".toList) = true ∧
      processContent "2026-WANDA-FPY_Modeling.md".toList
          "# T\n\n---\n\n**Related Threads:**\n\nbody\n".toList =
        "# T\n\n---\n\n**Related Threads:**\n\nbody\n".toList :=
  ⟨by decide,
   (inserter_idempotent "2026-WANDA-FPY_Modeling.md".toList
      "# T\n\n---\n\n**Related Threads:**\n\nbody\n".toList).2 (by decide)⟩

/-- The search loop, started past index 0 at counter `k`, stops exactly at
the first matching line. -/
theorem findInsertIdxGo_eq_of_first (ls : List (List Char)) :
    ∀ (k j : Nat), 0 < k → j < ls.length →
      pyStartsWith (ls.getD j []) "---".toList = true →
      (∀ m, m < j → pyStartsWith (ls.getD m []) "---".toList = false) →
      findInsertIdxGo k ls = k + j + 1 := by
  induction ls with
  | nil => intro k j _ hj _ _; simp at hj
  | cons l ls ih =>
    intro k j hk hj hsep hfirst
    unfold findInsertIdxGo
    cases j with
    | zero =>
      simp only [List.getD_cons_zero] at hsep
      rw [if_pos (by rw [Bool.and_eq_true, decide_eq_true_eq]; exact ⟨hsep, hk⟩)]
    | succ j' =>
      have h0 := hfirst 0 (by omega)
      simp only [List.getD_cons_zero] at h0
      rw [if_neg (by rw [Bool.and_eq_true]; rintro ⟨hx, _⟩; rw [h0] at hx; simp at hx)]
      have := ih (k + 1) j' (by omega) (by simpa using hj)
        (by simpa using hsep)
        (fun m hm => by
          have := hfirst (m + 1) (by omega)
          simpa using this)
      omega

/-- When no line at a positive index starts with `"---"`, the search
leaves `insert_idx` at its initial value 0. -/
theorem findInsertIdxGo_eq_zero (ls : List (List Char)) :
    ∀ k, (∀ j, j < ls.length → pyStartsWith (ls.getD j []) "---".toList = false) →
      findInsertIdxGo k ls = 0 := by
  induction ls with
  | nil => intro k _; rfl
  | cons l ls ih =>
    intro k hnone
    have h0 := hnone 0 (by simp)
    simp only [List.getD_cons_zero] at h0
    unfold findInsertIdxGo
    rw [if_neg (by rw [Bool.and_eq_true]; rintro ⟨hx, _⟩; rw [h0] at hx; simp at hx)]
    exact ih (k + 1) (fun j hj => by
      have := hnone (j + 1) (by simpa using hj)
      simpa using this)

/-- The chosen insertion index is one past the first horizontal-rule line
occurring after the start of the file. -/
theorem findInsertIdx_eq_of_first (lines : List (List Char)) (i : Nat)
    (hi : i < lines.length) (h0 : 0 < i)
    (hsep : pyStartsWith (lines.getD i []) "---".toList = true)
    (hfirst : ∀ j, 0 < j → j < i →
      pyStartsWith (lines.getD j []) "---".toList = false) :
    findInsertIdx lines = i + 1 := by
  cases lines with
  | nil => simp at hi
  | cons l₀ rest =>
    rw [findInsertIdx]
    unfold findInsertIdxGo
    rw [if_neg (by simp)]
    obtain ⟨j, rfl⟩ : ∃ j, i = j + 1 := ⟨i - 1, by omega⟩
    have := findInsertIdxGo_eq_of_first rest 1 j (by omega) (by simpa using hi)
      (by simpa using hsep)
      (fun m hm => by
        have := hfirst (m + 1) (by omega) (by omega)
        simpa using this)
    simp only [Nat.zero_add] at *
    omega

/-- The chosen insertion index defaults to 0 when no horizontal-rule line
occurs after the start of the file. -/
theorem findInsertIdx_eq_zero (lines : List (List Char))
    (hnone : ∀ j, 0 < j → j < lines.length →
      pyStartsWith (lines.getD j []) "---".toList = false) :
    findInsertIdx lines = 0 := by
  cases lines with
  | nil => rfl
  | cons l₀ rest =>
    rw [findInsertIdx]
    unfold findInsertIdxGo
    rw [if_neg (by simp)]
    exact findInsertIdxGo_eq_zero rest 1 (fun j hj => by
      have := hnone (j + 1) (by omega) (by simpa using hj)
      simpa using this)

/-- C4: on a guard-passing file with a non-empty thread list, the block
`"\n**Related Threads:**\n"` followed by one `- [[Threads/<name>]]` line
per thread and a blank line is inserted at the line index immediately
following the first horizontal-rule line occurring after the start of the
file. -/
theorem inserter_inserts_after_first_rule (name c : List Char) (i : Nat)
    (h1 : hasBacklinks (pyReadlines c) = false)
    (h2 : fileToThreads (wandaKey name) ≠ [])
    (hi : i < (pyReadlines c).length) (h0 : 0 < i)
    (hsep : pyStartsWith ((pyReadlines c).getD i []) "---".toList = true)
    (hfirst : ∀ j, 0 < j → j < i →
      pyStartsWith ((pyReadlines c).getD j []) "---".toList = false) :
    processContent name c =
      ((pyReadlines c).insertIdx (i + 1)
        ("\n**Related Threads:**\n".toList ++
          ((fileToThreads (wandaKey name)).map backlinkLine).flatten ++
          "\n".toList)).flatten := by
  have h2' : (fileToThreads (wandaKey name)).isEmpty = false := by
    rcases hfe : fileToThreads (wandaKey name) with _ | ⟨t, ts⟩
    · exact absurd hfe h2
    · rfl
  rw [processContent_insert name c h1 h2',
    findInsertIdx_eq_of_first _ i hi h0 hsep hfirst, backlinkBlock_eq]

/-- C9: on a guard-passing file with no horizontal-rule line at a positive
index, the block is inserted at the very beginning of the file (line
index 0), since `insert_idx` keeps its default value 0. -/
theorem inserter_inserts_at_start (name c : List Char)
    (h1 : hasBacklinks (pyReadlines c) = false)
    (h2 : fileToThreads (wandaKey name) ≠ [])
    (hnone : ∀ j, 0 < j → j < (pyReadlines c).length →
      pyStartsWith ((pyReadlines c).getD j []) "---".toList = false) :
    processContent name c =
      backlinkBlock (fileToThreads (wandaKey name)) ++ c := by
  have h2' : (fileToThreads (wandaKey name)).isEmpty = false := by
    rcases hfe : fileToThreads (wandaKey name) with _ | ⟨t, ts⟩
    · exact absurd hfe h2
    · rfl
  rw [processContent_insert name c h1 h2', findInsertIdx_eq_zero _ hnone,
    List.insertIdx_zero, List.flatten_cons, flatten_pyReadlines]

/-- Witness for C4 on a concrete file whose first `---` line is at index 2. -/
theorem inserter_inserts_after_first_rule_witness :
    processContent "2026-WANDA-FPY_Modeling.md".toList "# T\n\n---\n\nbody\n".toList =
      ((pyReadlines "# T\n\n---\n\nbody\n".toList).insertIdx (2 + 1)
        ("\n**Related Threads:**\n".toList ++
          ((fileToThreads (wandaKey "2026-WANDA-FPY_Modeling.md".toList)).map
            backlinkLine).flatten ++
          "\n".toList)).flatten :=
  inserter_inserts_after_first_rule "2026-WANDA-FPY_Modeling.md".toList
    "# T\n\n---\n\nbody\n".toList 2 (by decide) (by decide) (by decide) (by decide)
    (by decide)
    (fun j hj1 hj2 => by
      have : j = 1 := by omega
      subst this
      decide)

/-- Witness for C9 on a file whose only `---` line is at index 0 (which the
search ignores), so the block lands at the start. -/
theorem inserter_inserts_at_start_witness :
    processContent "2026-WANDA-FPY_Modeling.md".toList "---\nbody\n".toList =
      backlinkBlock (fileToThreads (wandaKey "2026-WANDA-FPY_Modeling.md".toList)) ++
        "---\nbody\n".toList :=
  inserter_inserts_at_start "2026-WANDA-FPY_Modeling.md".toList "---\nbody\n".toList
    (by decide) (by decide)
    (fun j hj1 hj2 => by
      have hlen : (pyReadlines "---\nbody\n".toList).length = 2 := by decide
      rw [hlen] at hj2
      have : j = 1 := by omega
      subst this
      decide)

/-- C7: the inserter leaves a file entirely unchanged whenever the file
name does not match the glob `2026-WANDA-*.md`, or the file already
contains the "Related Threads:" marker, or its key maps to no threads in
the static mapping. -/
theorem inserter_skip_cases (f : MdFile) :
    (matchesWandaGlob f.name = false → inserterStep f = f) ∧
      (hasBacklinks (pyReadlines f.content) = true → inserterStep f = f) ∧
      (fileToThreads (wandaKey f.name) = [] → inserterStep f = f) := by
  refine ⟨fun h => by simp [inserterStep, h], fun h => ?_, fun h => ?_⟩
  · unfold inserterStep
    split
    · rw [processContent_of_marker f.name f.content h]
    · rfl
  · unfold inserterStep
    split
    · rw [processContent_of_noThreads f.name f.content (by simp [h])]
    · rfl

/-- Witness for C7: one file per skip condition. -/
theorem inserter_skip_cases_witness :
    inserterStep ⟨"notes.md".toList, "# free text\n".toList⟩ =
        ⟨"notes.md".toList, "# free text\n".toList⟩ ∧
      inserterStep ⟨"2026-WANDA-FPY_Modeling.md".toList,
          "x\n**Related Threads:**\n".toList⟩ =
        ⟨"2026-WANDA-FPY_Modeling.md".toList, "x\n**Related Threads:**\n".toList⟩ ∧
      inserterStep ⟨"2026-WANDA-Unmapped_Talk.md".toList, "# T\n\n---\nbody\n".toList⟩ =
        ⟨"2026-WANDA-Unmapped_Talk.md".toList, "# T\n\n---\nbody\n".toList⟩ :=
  ⟨(inserter_skip_cases ⟨"notes.md".toList, "# free text\n".toList⟩).1 (by decide),
   (inserter_skip_cases ⟨"2026-WANDA-FPY_Modeling.md".toList,
      "x\n**Related Threads:**\n".toList⟩).2.1 (by decide),
   (inserter_skip_cases ⟨"2026-WANDA-Unmapped_Talk.md".toList,
      "# T\n\n---\nbody\n".toList⟩).2.2 (by decide)⟩

/-! ## Extractor (`extract_with_pymupdf.py`) -/

/-- Python's whitespace characters for `str.strip()` (ASCII model). -/
def isPySpace (c : Char) : Bool :=
  c = ' ' || c = '\t' || c = '\n' || c = '\r' || c = '\x0b' || c = '\x0c'

/-- Python `str.strip()`: drop leading and trailing whitespace. -/
def pyStrip (s : List Char) : List Char :=
  ((s.dropWhile isPySpace).reverse.dropWhile isPySpace).reverse

/-- The result of `fitz.open` plus the per-page `get_text()` calls on one
PDF: either the list of per-page text blocks, or the exception message
raised by the external library on an unreadable file. -/
inductive PdfRead where
  | pages (ps : List (List Char))
  | failure (msg : List Char)
deriving DecidableEq

/-- A PDF file of the input directory: its file name and what reading it
through the external library yields. -/
structure PdfFile where
  name : List Char
  read : PdfRead
deriving DecidableEq

/-- One `# Page <n>` section of the output markdown. -/
def pageSection (n : Nat) (text : List Char) : List Char :=
  "# Page ".toList ++ Nat.toDigits 10 n ++ "\n\n".toList ++ text

/-- The `full_text` list built by the page loop: for each page index in
`range(len(doc))`, keep a `# Page <page_num + 1>` section when the page's
text does not strip to empty. -/
def extractFullText (pages : List (List Char)) : List (List Char) :=
  (List.range pages.length).filterMap (fun pn =>
    let text := pages.getD pn []
    if (pyStrip text).isEmpty then none else some (pageSection (pn + 1) text))

/-- The content written for one successfully-read PDF: the fixed header
(title, source file name, page count, separator) followed by the non-empty
page sections joined by blank lines. -/
def extractorOutput (name : List Char) (pages : List (List Char)) : List Char :=
  "# ".toList ++ stemOfExt 4 name ++ "\n\n".toList ++
    "**Source:** `".toList ++ name ++ "`\n\n".toList ++
    "**Pages:** ".toList ++ Nat.toDigits 10 pages.length ++ "\n\n".toList ++
    "---\n\n".toList ++
    List.intercalate "\n\n".toList (extractFullText pages)

/-- The state threaded through the extraction loop: the output files
written so far, the success counter, and the `failed` list of file names
with error messages. -/
structure ExtractState where
  outputs : List (List Char × List Char)
  success : Nat
  failed : List (List Char × List Char)
deriving DecidableEq

/-- One iteration of the extraction loop: on success write the markdown
file named after the PDF stem and bump the counter; on an exception record
the file name and message and continue. -/
def extractStep (st : ExtractState) (p : PdfFile) : ExtractState :=
  match p.read with
  | .pages ps =>
    { st with
      outputs := st.outputs ++ [(stemOfExt 4 p.name ++ ".md".toList,
        extractorOutput p.name ps)]
      success := st.success + 1 }
  | .failure m => { st with failed := st.failed ++ [(p.name, m)] }

/-- The whole extraction run over the input directory. -/
def runExtractor (pdfs : List PdfFile) : ExtractState :=
  pdfs.foldl extractStep ⟨[], 0, []⟩

/-- The output file produced for one PDF, when any. -/
def outputOf (p : PdfFile) : Option (List Char × List Char) :=
  match p.read with
  | .pages ps => some (stemOfExt 4 p.name ++ ".md".toList, extractorOutput p.name ps)
  | .failure _ => none

/-- The failure record produced for one PDF, when any. -/
def failureOf (p : PdfFile) : Option (List Char × List Char) :=
  match p.read with
  | .pages _ => none
  | .failure m => some (p.name, m)

/-- Whether a PDF reads successfully. -/
def readOk (p : PdfFile) : Bool :=
  match p.read with
  | .pages _ => true
  | .failure _ => false

/-! ## Facts about the extractor -/

/-- Characterisation of the extraction loop as three independent folds. -/
theorem foldl_extractStep_eq (pdfs : List PdfFile) :
    ∀ st : ExtractState,
      pdfs.foldl extractStep st =
        ⟨st.outputs ++ pdfs.filterMap outputOf,
         st.success + pdfs.countP readOk,
         st.failed ++ pdfs.filterMap failureOf⟩ := by
  induction pdfs with
  | nil => intro st; simp
  | cons p ps ih =>
    intro st
    rw [List.foldl_cons, ih]
    cases hp : p.read with
    | pages pg =>
      simp [extractStep, outputOf, failureOf, readOk, hp, List.filterMap_cons,
        List.countP_cons, List.append_assoc]
      omega
    | failure m =>
      simp [extractStep, outputOf, failureOf, readOk, hp, List.filterMap_cons,
        List.countP_cons, List.append_assoc]

/-- The final state of the extraction run. -/
theorem runExtractor_eq (pdfs : List PdfFile) :
    runExtractor pdfs =
      ⟨pdfs.filterMap outputOf, pdfs.countP readOk, pdfs.filterMap failureOf⟩ := by
  rw [runExtractor, foldl_extractStep_eq]
  simp

/-- A name of the form `base ++ ".pdf"` with `base` non-empty is recovered
from its stem. -/
theorem stemOfExt_pdf_append (base : List Char) (hb : base ≠ []) :
    stemOfExt 4 (base ++ ".pdf".toList) = base := by
  have hlen : (base ++ ".pdf".toList).length = base.length + 4 := by simp
  rw [stemOfExt, if_neg (by rw [hlen]; have := List.length_pos.mpr hb; omega)]
  rw [hlen]
  simpa using List.take_left' rfl

/-- Stems are injective on `.pdf` names longer than the extension. -/
theorem stemOfExt_pdf_inj (a b : List Char)
    (ha : ".pdf".toList.isSuffixOf a = true) (hla : 4 < a.length)
    (hb : ".pdf".toList.isSuffixOf b = true) (hlb : 4 < b.length)
    (h : stemOfExt 4 a = stemOfExt 4 b) : a = b := by
  obtain ⟨ta, hta⟩ := (List.isSuffixOf_iff_suffix.mp ha : ".pdf".toList <:+ a)
  obtain ⟨tb, htb⟩ := (List.isSuffixOf_iff_suffix.mp hb : ".pdf".toList <:+ b)
  have hlta : ta ≠ [] := by
    rintro rfl
    rw [← hta] at hla
    simp at hla
  have hltb : tb ≠ [] := by
    rintro rfl
    rw [← htb] at hlb
    simp at hlb
  rw [← hta, ← htb, stemOfExt_pdf_append ta hlta, stemOfExt_pdf_append tb hltb] at h
  rw [← hta, ← htb, h]

/-- C6: a PDF whose read raises an exception has its file name and message
recorded in the `failed` list, every other PDF is still processed (the
success and failure counts add up to the whole input), the final summary
data (success count and failure list with reasons) is exactly the fold of
the per-file outcomes, and the failed PDF produces no output file. -/
theorem extractor_failure_recorded (pdfs : List PdfFile) (p : PdfFile) (m : List Char)
    (hp : p ∈ pdfs) (herr : p.read = .failure m)
    (hnames : (pdfs.map PdfFile.name).Nodup)
    (hform : ∀ q ∈ pdfs, ".pdf".toList.isSuffixOf q.name = true ∧ 4 < q.name.length) :
    (p.name, m) ∈ (runExtractor pdfs).failed ∧
      (runExtractor pdfs).failed = pdfs.filterMap failureOf ∧
      (runExtractor pdfs).success = pdfs.countP readOk ∧
      (runExtractor pdfs).success + (runExtractor pdfs).failed.length = pdfs.length ∧
      ∀ o ∈ (runExtractor pdfs).outputs,
        o.1 ≠ stemOfExt 4 p.name ++ ".md".toList := by
  rw [runExtractor_eq]
  dsimp only
  refine ⟨?_, rfl, rfl, ?_, ?_⟩
  · exact List.mem_filterMap.mpr ⟨p, hp, by simp [failureOf, herr]⟩
  · rw [List.length_filterMap_eq_countP]
    have hsplit := List.length_eq_countP_add_countP (p := readOk) pdfs
    have hcong : pdfs.countP (fun a => (failureOf a).isSome) =
        pdfs.countP (fun a => ¬ readOk a) := by
      apply List.countP_congr
      intro q _
      cases hq : q.read <;> simp [failureOf, readOk, hq]
    rw [hcong]
    omega
  · intro o ho hofst
    obtain ⟨q, hq, hqo⟩ := List.mem_filterMap.mp ho
    cases hqr : q.read with
    | failure m' => simp [outputOf, hqr] at hqo
    | pages pg =>
      simp only [outputOf, hqr, Option.some.injEq] at hqo
      have hfst : stemOfExt 4 q.name ++ ".md".toList =
          stemOfExt 4 p.name ++ ".md".toList := by
        rw [← hofst, ← hqo]
      have hstem : stemOfExt 4 q.name = stemOfExt 4 p.name :=
        List.append_cancel_right hfst
      have hname : q.name = p.name :=
        stemOfExt_pdf_inj q.name p.name (hform q hq).1 (hform q hq).2
          (hform p hp).1 (hform p hp).2 hstem
      have : q = p := List.inj_on_of_nodup_map hnames hq hp hname
      rw [this, herr] at hqr
      exact PdfRead.noConfusion hqr

/-- A concrete input directory with one readable and one corrupt PDF. -/
def demoPdfs : List PdfFile :=
  [⟨"good.pdf".toList, .pages ["Intro text".toList]⟩,
   ⟨"bad.pdf".toList, .failure "cannot open broken file".toList⟩]

/-- Witness for C6 on the concrete directory. -/
theorem extractor_failure_recorded_witness :
    ("bad.pdf".toList, "cannot open broken file".toList) ∈
        (runExtractor demoPdfs).failed ∧
      (runExtractor demoPdfs).failed = demoPdfs.filterMap failureOf ∧
      (runExtractor demoPdfs).success = demoPdfs.countP readOk ∧
      (runExtractor demoPdfs).success + (runExtractor demoPdfs).failed.length =
        demoPdfs.length ∧
      ∀ o ∈ (runExtractor demoPdfs).outputs,
        o.1 ≠ stemOfExt 4 "bad.pdf".toList ++ ".md".toList :=
  extractor_failure_recorded demoPdfs
    ⟨"bad.pdf".toList, .failure "cannot open broken file".toList⟩
    "cannot open broken file".toList
    (by decide) rfl (by decide) (by decide)

/-- Dropping a satisfying prefix keeps the "all elements satisfy"
property unchanged. -/
theorem all_dropWhile_iff (p : Char → Bool) (t : List Char) :
    (∀ x ∈ t.dropWhile p, p x = true) ↔ ∀ x ∈ t, p x = true := by
  constructor
  · intro h x hx
    rcases List.mem_append.mp
        ((List.takeWhile_append_dropWhile p t) ▸ hx) with hx' | hx'
    · exact List.mem_takeWhile_imp hx'
    · exact h x hx'
  · intro h x hx
    exact h x (List.dropWhile_sublist p |>.mem hx)

/-- `text.strip()` is empty exactly when every character is whitespace. -/
theorem pyStrip_empty_iff (t : List Char) :
    pyStrip t = [] ↔ t.all isPySpace = true := by
  rw [pyStrip, List.all_eq_true]
  constructor
  · intro h
    rw [List.reverse_eq_nil_iff, List.dropWhile_eq_nil_iff] at h
    rw [← all_dropWhile_iff isPySpace t]
    intro x hx
    exact h x (List.mem_reverse.mpr hx)
  · intro h
    rw [List.reverse_eq_nil_iff, List.dropWhile_eq_nil_iff]
    intro x hx
    exact h x ((List.dropWhile_sublist isPySpace).mem (List.mem_reverse.mp hx))

/-- Bool form of the previous fact. -/
theorem pyStrip_isEmpty_eq (t : List Char) :
    (pyStrip t).isEmpty = t.all isPySpace := by
  rw [Bool.eq_iff_iff, List.isEmpty_iff]
  exact pyStrip_empty_iff t

/-- The indexed loop over `range(len(pages))` with element lookup equals a
filterMap over the enumerated list. -/
theorem range_getD_filterMap (f : Nat → List Char → Option (List Char)) :
    ∀ pages : List (List Char),
      (List.range pages.length).filterMap (fun pn => f pn (pages.getD pn [])) =
        pages.enum.filterMap (fun it => f it.1 it.2) := by
  intro pages
  induction pages generalizing f with
  | nil => simp
  | cons a ps ih =>
    rw [List.length_cons, List.range_succ_eq_map, List.enum_cons']
    rw [List.filterMap_cons, List.filterMap_cons, List.filterMap_map, List.filterMap_map]
    have hrest :
        List.filterMap ((fun pn => f pn ((a :: ps).getD pn [])) ∘ Nat.succ)
            (List.range ps.length) =
          List.filterMap ((fun it : Nat × List Char => f it.1 it.2) ∘
            Prod.map Nat.succ id) ps.enum := by
      have h1 : ((fun pn => f pn ((a :: ps).getD pn [])) ∘ Nat.succ) =
          (fun pn => f (pn + 1) (ps.getD pn [])) := by
        funext pn
        simp [Function.comp, List.getD_cons_succ]
      have h2 : ((fun it : Nat × List Char => f it.1 it.2) ∘ Prod.map Nat.succ id) =
          (fun it : Nat × List Char => f (it.1 + 1) it.2) := by
        funext it
        simp [Prod.map]
      rw [h1, h2]
      exact ih (fun pn t => f (pn + 1) t)
    rw [List.getD_cons_zero]
    cases hfa : f 0 a <;> simp only [hfa] <;> rw [hrest]

/-- The page loop in enumerated form: a section is kept exactly for the
pages that are not whitespace-only, with the original 1-based page number. -/
theorem extractFullText_eq_enum (pages : List (List Char)) :
    extractFullText pages =
      pages.enum.filterMap (fun it =>
        if it.2.all isPySpace then none
        else some (pageSection (it.1 + 1) it.2)) := by
  rw [extractFullText]
  have h := range_getD_filterMap
    (fun pn text => if (pyStrip text).isEmpty then none
      else some (pageSection (pn + 1) text)) pages
  rw [h]
  apply List.filterMap_congr
  intro it _
  rw [pyStrip_isEmpty_eq]

/-- Counting over a `filterMap` as counting over the source list. -/
theorem countP_filterMap (g : List Char × List Char → Bool)
    (f : PdfFile → Option (List Char × List Char)) (l : List PdfFile) :
    (l.filterMap f).countP g = l.countP (fun a => ((f a).map g).getD false) := by
  induction l with
  | nil => rfl
  | cons x xs ih =>
    rw [List.filterMap_cons]
    cases hfx : f x with
    | none => simp [List.countP_cons, hfx, ih]
    | some b => simp [List.countP_cons, hfx, ih]

/-- A predicate holding at exactly one member of a duplicate-free list is
counted once. -/
theorem countP_eq_one_of_unique (f : PdfFile → Bool) (l : List PdfFile) (a : PdfFile)
    (hnd : l.Nodup) (ha : a ∈ l) (hfa : f a = true)
    (hother : ∀ b ∈ l, b ≠ a → f b = false) : l.countP f = 1 := by
  induction l with
  | nil => simp at ha
  | cons x xs ih =>
    rcases List.mem_cons.mp ha with rfl | hmem
    · rw [List.countP_cons_of_pos _ _ hfa]
      have hz : xs.countP f = 0 := by
        rw [List.countP_eq_zero]
        intro b hb
        have hbne : b ≠ a := by
          rintro rfl
          exact (List.nodup_cons.mp hnd).1 hb
        simp [hother b (List.mem_cons_of_mem _ hb) hbne]
      rw [hz]
    · have hxa : x ≠ a := by
        rintro rfl
        exact (List.nodup_cons.mp hnd).1 hmem
      rw [List.countP_cons_of_neg _ _
        (by simp [hother x (List.mem_cons_self x xs) hxa])]
      exact ih (List.nodup_cons.mp hnd).2 hmem
        (fun b hb hba => hother b (List.mem_cons_of_mem _ hb) hba)

/-- C5: every PDF processed without an exception yields exactly one output
markdown file, named after the PDF's stem, whose content is the fixed
header — title, source file name, a page count equal to the PDF's actual
page count, and a separator — followed by one `# Page <n>` section per
page whose text is not whitespace-only. -/
theorem extractor_output_per_pdf (pdfs : List PdfFile) (p : PdfFile)
    (ps : List (List Char))
    (hp : p ∈ pdfs) (hok : p.read = .pages ps)
    (hnames : (pdfs.map PdfFile.name).Nodup)
    (hform : ∀ q ∈ pdfs, ".pdf".toList.isSuffixOf q.name = true ∧ 4 < q.name.length) :
    (runExtractor pdfs).outputs.countP
        (fun o => o.1 == stemOfExt 4 p.name ++ ".md".toList) = 1 ∧
      (stemOfExt 4 p.name ++ ".md".toList, extractorOutput p.name ps) ∈
        (runExtractor pdfs).outputs ∧
      extractorOutput p.name ps =
        "# ".toList ++ stemOfExt 4 p.name ++ "\n\n".toList ++
          "**Source:** `".toList ++ p.name ++ "`\n\n".toList ++
          "**Pages:** ".toList ++ Nat.toDigits 10 ps.length ++ "\n\n".toList ++
          "---\n\n".toList ++
          List.intercalate "\n\n".toList
            (ps.enum.filterMap (fun it =>
              if it.2.all isPySpace then none
              else some (pageSection (it.1 + 1) it.2))) := by
  rw [runExtractor_eq]
  dsimp only
  refine ⟨?_, ?_, ?_⟩
  · rw [countP_filterMap]
    apply countP_eq_one_of_unique _ _ p hnames.of_map hp
    · simp [outputOf, hok]
    · intro q hq hqp
      cases hqr : q.read with
      | failure m => simp [outputOf, hqr]
      | pages pg =>
        simp only [outputOf, hqr, Option.map_some', Option.getD_some]
        rw [beq_eq_false_iff_ne]
        intro heq
        have hstem := List.append_cancel_right heq
        have hname := stemOfExt_pdf_inj q.name p.name (hform q hq).1
          (hform q hq).2 (hform p hp).1 (hform p hp).2 hstem
        exact hqp (List.inj_on_of_nodup_map hnames hq hp hname)
  · exact List.mem_filterMap.mpr ⟨p, hp, by simp [outputOf, hok]⟩
  · rw [extractorOutput, extractFullText_eq_enum]

/-- Witness for C5 on the concrete directory. -/
theorem extractor_output_per_pdf_witness :
    (runExtractor demoPdfs).outputs.countP
        (fun o => o.1 == stemOfExt 4 "good.pdf".toList ++ ".md".toList) = 1 ∧
      (stemOfExt 4 "good.pdf".toList ++ ".md".toList,
        extractorOutput "good.pdf".toList ["Intro text".toList]) ∈
        (runExtractor demoPdfs).outputs ∧
      extractorOutput "good.pdf".toList ["Intro text".toList] =
        "# ".toList ++ stemOfExt 4 "good.pdf".toList ++ "\n\n".toList ++
          "**Source:** `".toList ++ "good.pdf".toList ++ "`\n\n".toList ++
          "**Pages:** ".toList ++ Nat.toDigits 10 ["Intro text".toList].length ++
          "\n\n".toList ++
          "---\n\n".toList ++
          List.intercalate "\n\n".toList
            ((["Intro text".toList].enum).filterMap (fun it =>
              if it.2.all isPySpace then none
              else some (pageSection (it.1 + 1) it.2))) :=
  extractor_output_per_pdf demoPdfs
    ⟨"good.pdf".toList, .pages ["Intro text".toList]⟩ ["Intro text".toList]
    (by decide) rfl (by decide) (by decide)

/-- C10: each `# Page <n>` heading carries the page's original 1-based
position (gaps appear when whitespace-only pages are skipped), and the
number of page sections is at most — and can be strictly less than — the
page count stated in the header. -/
theorem page_numbering_has_gaps :
    (∀ pages : List (List Char),
        extractFullText pages =
          pages.enum.filterMap (fun it =>
            if it.2.all isPySpace then none
            else some (pageSection (it.1 + 1) it.2)) ∧
          (extractFullText pages).length ≤ pages.length) ∧
      extractFullText ["  \n".toList, "Results".toList] =
        [pageSection 2 "Results".toList] ∧
      (extractFullText ["Intro".toList, " \n ".toList]).length <
        ["Intro".toList, " \n ".toList].length := by
  refine ⟨fun pages => ⟨extractFullText_eq_enum pages, ?_⟩, by decide, by decide⟩
  rw [extractFullText_eq_enum]
  calc (pages.enum.filterMap (fun it =>
          if it.2.all isPySpace then none
          else some (pageSection (it.1 + 1) it.2))).length
      ≤ pages.enum.length := List.length_filterMap_le _ _
    _ = pages.length := List.enum_length
